import Mathlib

/-!
Verification of the `pseudo-sethtml` HTML sanitizer.

The library rewrites untrusted HTML fragments with a fixed sequence of
regular-expression replacement passes (`src/sanitizer.ts`) and exposes
Node-side helpers (`src/node.ts`).  This file gives a shallow embedding of
those passes over `List Char`: every JavaScript regex used by the source is
implemented as an explicit matcher, and the global `String.replace` scan is
the function `scanReplace`.  Configured element/attribute names are matched
as literal text (the source interpolates them into regex patterns; none of
the names exercised here contain regex metacharacters).
-/

set_option maxHeartbeats 4000000
set_option maxRecDepth 10000

/-- JavaScript `\s` restricted to the whitespace characters that occur in this
development (space, tab, newline, carriage return, vertical tab, form feed). -/
def jsWs (c : Char) : Bool :=
  c == ' ' || c == '\t' || c == '\n' || c == '\r' || c == '\x0b' || c == '\x0c'

/-- JavaScript `\w`: ASCII letters, digits and underscore. -/
def isWordChar (c : Char) : Bool :=
  c.isAlphanum || c == '_'

/-- Case-insensitive character comparison, as done by the `i` regex flag. -/
def ciEq (c d : Char) : Bool :=
  c.toLower == d.toLower

/-- Consume one exact character. -/
def eatc (c : Char) : List Char → Option (List Char)
  | [] => none
  | d :: rest => if d == c then some rest else none

/-- Consume an exact literal sequence. -/
def eatSeq : List Char → List Char → Option (List Char)
  | [], l => some l
  | _ :: _, [] => none
  | p :: ps, d :: rest => if d == p then eatSeq ps rest else none

/-- Consume a literal sequence case-insensitively, returning the consumed
input characters (original casing) and the rest. -/
def eatCi : List Char → List Char → Option (List Char × List Char)
  | [], l => some ([], l)
  | _ :: _, [] => none
  | p :: ps, d :: rest =>
    if ciEq d p then (eatCi ps rest).map (fun pr => (d :: pr.1, pr.2)) else none

/-- `[^stop]* stop`: consume up to and including the first occurrence of
`stop`; fails if `stop` never occurs.  Returns (consumed, rest). -/
def toFirst (stop : Char) : List Char → Option (List Char × List Char)
  | [] => none
  | c :: rest =>
    if c == stop then some ([c], rest)
    else (toFirst stop rest).map (fun pr => (c :: pr.1, pr.2))

/-- Lazy `[\s\S]*?pat` (case-insensitive): consume through the first
occurrence of `pat`; fails if there is none.  Returns (consumed, rest). -/
def findCi (pat : List Char) : List Char → Option (List Char × List Char)
  | [] => (eatCi pat []).map (fun pr => (pr.1, pr.2))
  | c :: rest =>
    match eatCi pat (c :: rest) with
    | some pr => some pr
    | none => (findCi pat rest).map (fun pr => (c :: pr.1, pr.2))

/-- Fuelled worker for `scanReplace`; the fuel only serves structural
termination and is irrelevant as long as it bounds the input length. -/
def scanReplaceF (m : List Char → Option (List Char × List Char)) :
    Nat → List Char → List Char
  | _, [] => []
  | 0, l => l
  | fuel + 1, c :: cs =>
    match m (c :: cs) with
    | some (rep, rest) =>
      if rest.length < (c :: cs).length then rep ++ scanReplaceF m fuel rest
      else c :: scanReplaceF m fuel cs
    | none => c :: scanReplaceF m fuel cs

/-- One global-`replace` scan, the semantics of JavaScript
`String.replace(/re/g, f)`: at each position try the matcher; on a match
emit its replacement and continue after the match, otherwise keep the
character and move one position forward. -/
def scanReplace (m : List Char → Option (List Char × List Char)) (l : List Char) : List Char :=
  scanReplaceF m l.length l

/-- Fuelled worker for `scanCollect`. -/
def scanCollectF {α : Type} (m : List Char → Option (α × List Char)) :
    Nat → List Char → List α
  | _, [] => []
  | 0, _ => []
  | fuel + 1, c :: cs =>
    match m (c :: cs) with
    | some (a, rest) =>
      if rest.length < (c :: cs).length then a :: scanCollectF m fuel rest
      else a :: scanCollectF m fuel cs
    | none => scanCollectF m fuel cs

/-- The scan underlying a JavaScript `while ((match = re.exec(s)) !== null)`
loop: collect the captures of all (non-overlapping, leftmost) matches. -/
def scanCollect {α : Type} (m : List Char → Option (α × List Char)) (l : List Char) : List α :=
  scanCollectF m l.length l

/-- Index just past the end of the first match of `m` in `l` (the value a
JavaScript global regex stores in `lastIndex` after a successful `test`). -/
def findEnd (m : List Char → Option (List Char × List Char)) : List Char → Nat → Option Nat
  | [], _ => none
  | c :: cs, i =>
    match m (c :: cs) with
    | some (_, rest) => some (i + ((c :: cs).length - rest.length))
    | none => findEnd m cs (i + 1)

/-- The `\b` test between a previous character and the following input. -/
def wordBoundaryAfter (prev : Char) (l : List Char) : Bool :=
  match l with
  | [] => isWordChar prev
  | c :: _ => isWordChar prev != isWordChar c

/-- Matcher for `<!DOCTYPE[^>]*>` (flag `gi`); deletes the match. -/
def mDoctype (l : List Char) : Option (List Char × List Char) :=
  match eatCi "<!DOCTYPE".toList l with
  | none => none
  | some (_, r1) =>
    match toFirst '>' r1 with
    | none => none
    | some (_, r2) => some ([], r2)

/-- Lazy search for an exact literal: drop input through the first occurrence
of `pat`, failing if there is none. -/
def findSeq (pat : List Char) : List Char → Option (List Char)
  | [] => eatSeq pat []
  | c :: rest =>
    match eatSeq pat (c :: rest) with
    | some r => some r
    | none => findSeq pat rest

/-- Matcher for `<!--[\s\S]*?-->` (flag `g`); deletes the match. -/
def mComment (l : List Char) : Option (List Char × List Char) :=
  match eatSeq "<!--".toList l with
  | none => none
  | some r1 =>
    match findSeq "-->".toList r1 with
    | none => none
    | some r2 => some ([], r2)

/-- Matcher for ``<tag\b[^>]*>[\s\S]*?</tag>`` (flag `gi`), the
blocked-element-with-content removal regex; deletes the match. -/
def mTagPair (tag : List Char) (l : List Char) : Option (List Char × List Char) :=
  match eatc '<' l with
  | none => none
  | some r0 =>
    match eatCi tag r0 with
    | none => none
    | some (con, r1) =>
      if wordBoundaryAfter (con.getLastD '<') r1 then
        match toFirst '>' r1 with
        | none => none
        | some (_, r2) =>
          match findCi ('<' :: '/' :: (tag ++ ['>'])) r2 with
          | none => none
          | some (_, r3) => some ([], r3)
      else none

/-- Matcher for ``<tag\b[^>]*\/?>`` (flag `gi`), the self-closing/opening
blocked-tag removal regex; deletes the match. -/
def mTagOpen (tag : List Char) (l : List Char) : Option (List Char × List Char) :=
  match eatc '<' l with
  | none => none
  | some r0 =>
    match eatCi tag r0 with
    | none => none
    | some (con, r1) =>
      if wordBoundaryAfter (con.getLastD '<') r1 then
        match toFirst '>' r1 with
        | none => none
        | some (_, r2) => some ([], r2)
      else none

/-- Tail of the blocked-attribute regex after the leading `\s+`:
``attr\s*=\s*q[^q]*q`` for a fixed quote `q`. -/
def attrTail (attr : List Char) (q : Char) (l : List Char) : Option (List Char) :=
  match eatCi attr l with
  | none => none
  | some (_, r1) =>
    match eatc '=' (r1.dropWhile jsWs) with
    | none => none
    | some r3 =>
      match eatc q (r3.dropWhile jsWs) with
      | none => none
      | some r5 => eatc q (r5.dropWhile (fun c => c != q))

/-- Greedy-with-backtracking `\s+` before `attrTail`: try consuming `k`
whitespace characters for `k` from the full run length down to 1. -/
def mAttrGo (attr : List Char) (q : Char) (l : List Char) : Nat → Option (List Char)
  | 0 => none
  | k + 1 =>
    match attrTail attr q (l.drop (k + 1)) with
    | some r => some r
    | none => mAttrGo attr q l k

/-- Matcher for ``\s+attr\s*=\s*q[^q]*q`` (flag `gi`); deletes the match. -/
def mAttr (attr : List Char) (q : Char) (l : List Char) : Option (List Char × List Char) :=
  match l with
  | [] => none
  | c :: _ =>
    if jsWs c then (mAttrGo attr q l (l.takeWhile jsWs).length).map (fun r => (([] : List Char), r))
    else none

/-- Scheme start character of the WHATWG URL grammar. -/
def isSchemeStart (c : Char) : Bool := c.isAlpha

/-- Scheme continuation character of the WHATWG URL grammar. -/
def isSchemeChar (c : Char) : Bool :=
  c.isAlphanum || c == '+' || c == '-' || c == '.'

/-- Model of the host platform's `new URL(url)` constructor as observed by
`sanitizeUrls`: it either throws (`none`) or yields `urlObj.protocol`
(`some`, a lowercased scheme followed by a colon).  Absolute URLs need a
scheme; the special schemes additionally need a `//` and a nonempty host. -/
def parseProtocol (url : List Char) : Option String :=
  let l := ((url.dropWhile jsWs).reverse.dropWhile jsWs).reverse
  match l with
  | [] => none
  | c :: rest =>
    if isSchemeStart c then
      let scheme := c :: rest.takeWhile isSchemeChar
      match rest.dropWhile isSchemeChar with
      | ':' :: tail =>
        let proto := String.mk (scheme.map Char.toLower ++ [':'])
        if proto ∈ (["http:", "https:", "ws:", "wss:", "ftp:"] : List String) then
          match tail with
          | '/' :: '/' :: h :: _ => if h == '/' then none else some proto
          | _ => none
        else some proto
      | _ => none
    else none

/-- Configuration record of the sanitizer, `SanitizerConfig` in the source.
`none` is an absent (JavaScript `undefined`) field. -/
structure SanitizerConfig where
  elements : Option (List String) := none
  removeElements : Option (List String) := none
  allowedElements : Option (List String) := none
  disallowedElements : Option (List String) := none
  allowedAttributes : Option (List String) := none
  disallowedAttributes : Option (List String) := none
  allowedProtocols : Option (List String) := none
  allowDataUrls : Option Bool := none
  stripComments : Option Bool := none
  stripDoctype : Option Bool := none
deriving DecidableEq

/-- `DEFAULT_SANITIZER_CONFIG` from the source. -/
def DEFAULT_SANITIZER_CONFIG : SanitizerConfig where
  elements := some ["p", "br", "strong", "em", "u", "b", "i", "span", "div",
    "h1", "h2", "h3", "h4", "h5", "h6", "ul", "ol", "li", "blockquote",
    "pre", "code", "a", "img", "table", "thead", "tbody", "tr", "th", "td"]
  removeElements := some ["script", "style", "iframe", "object", "embed",
    "form", "input", "textarea", "button", "select", "option"]
  allowedElements := some ["p", "br", "strong", "em", "u", "b", "i", "span", "div",
    "h1", "h2", "h3", "h4", "h5", "h6", "ul", "ol", "li", "blockquote",
    "pre", "code", "a", "img", "table", "thead", "tbody", "tr", "th", "td"]
  disallowedElements := some ["script", "style", "iframe", "object", "embed",
    "form", "input", "textarea", "button", "select", "option"]
  allowedAttributes := some ["href", "src", "alt", "title", "class", "id",
    "style", "width", "height", "colspan", "rowspan", "target"]
  disallowedAttributes := some ["onclick", "onload", "onerror", "onmouseover",
    "onmouseout", "onfocus", "onblur", "onchange", "onsubmit"]
  allowedProtocols := some ["http:", "https:", "mailto:", "tel:"]
  allowDataUrls := some false
  stripComments := some true
  stripDoctype := some true

/-- The decision the `sanitizeUrls` replacement callback makes for one matched
`href`/`src` attribute: `attrTxt` is the matched group 1 (original casing),
`restTxt` the remainder of the matched text, `url` the quoted value. -/
def urlDecision (cfg : SanitizerConfig) (attrTxt restTxt url : List Char) : List Char :=
  let hash := attrTxt ++ ('=' :: '"' :: '#' :: '"' :: [])
  match parseProtocol url with
  | none => hash
  | some proto =>
    if (match cfg.allowedProtocols with
        | some ps => !(ps.contains proto)
        | none => false) then hash
    else if proto == "data:" && !(cfg.allowDataUrls.getD false) then hash
    else attrTxt ++ restTxt

/-- Matcher for ``(href|src)\s*=\s*q([^q]+)q`` (flag `gi`) together with the
URL-validation replacement callback of `sanitizeUrls`. -/
def mUrl (cfg : SanitizerConfig) (q : Char) (l : List Char) : Option (List Char × List Char) :=
  match (match eatCi "href".toList l with
         | some pr => some pr
         | none => eatCi "src".toList l) with
  | none => none
  | some (attrTxt, r1) =>
    let ws1 := r1.takeWhile jsWs
    match eatc '=' (r1.dropWhile jsWs) with
    | none => none
    | some r3 =>
      let ws2 := r3.takeWhile jsWs
      match eatc q (r3.dropWhile jsWs) with
      | none => none
      | some r5 =>
        let url := r5.takeWhile (fun c => c != q)
        if url.isEmpty then none
        else
          match eatc q (r5.dropWhile (fun c => c != q)) with
          | none => none
          | some r7 =>
            some (urlDecision cfg attrTxt (ws1 ++ '=' :: (ws2 ++ q :: (url ++ [q]))) url, r7)

/-- Matcher for ``(href|src)\s*=\s*["']lit[^"']*["']`` (flag `gi`), the
`removeUnsafe` URL regexes; replaces the match by `$1="#"`. -/
def mUnsafeUrl (lit : List Char) (l : List Char) : Option (List Char × List Char) :=
  match (match eatCi "href".toList l with
         | some pr => some pr
         | none => eatCi "src".toList l) with
  | none => none
  | some (attrTxt, r1) =>
    match eatc '=' (r1.dropWhile jsWs) with
    | none => none
    | some r3 =>
      match r3.dropWhile jsWs with
      | [] => none
      | q :: r5 =>
        if q == '"' || q == '\'' then
          match eatCi lit r5 with
          | none => none
          | some (_, r6) =>
            match r6.dropWhile (fun c => c != '"' && c != '\'') with
            | [] => none
            | _ :: r8 => some (attrTxt ++ ('=' :: '"' :: '#' :: '"' :: []), r8)
        else none

/-- One capture attempt of the empty-tag cleanup regex
``<(\w+)[^>]*>\s*</\1>`` (or the `\s+` variant when `needWs` is true):
`cap` is the candidate `\w+` capture, `afterCap` the input after it. -/
def cleanupAttempt (cap : List Char) (afterCap : List Char) (needWs : Bool) : Option (List Char) :=
  match toFirst '>' afterCap with
  | none => none
  | some (_, r1) =>
    if needWs && (r1.takeWhile jsWs).isEmpty then none
    else
      match eatSeq ['<', '/'] (r1.dropWhile jsWs) with
      | none => none
      | some r3 =>
        match eatCi cap r3 with
        | none => none
        | some (_, r4) => eatc '>' r4

/-- Backtracking over the greedy `(\w+)` capture, longest first. -/
def cleanupGo (rest : List Char) (needWs : Bool) : Nat → Option (List Char)
  | 0 => none
  | k + 1 =>
    match cleanupAttempt (rest.take (k + 1)) (rest.drop (k + 1)) needWs with
    | some r => some r
    | none => cleanupGo rest needWs k

/-- Matcher for ``<(\w+)[^>]*>\s*</\1>`` (`needWs := false`) and
``<(\w+)[^>]*>\s+</\1>`` (`needWs := true`), flag `gi`; deletes the match. -/
def mCleanup (needWs : Bool) (l : List Char) : Option (List Char × List Char) :=
  match l with
  | [] => none
  | c :: rest =>
    if c = '<' then
      (cleanupGo rest needWs (rest.takeWhile isWordChar).length).map (fun r => (([] : List Char), r))
    else none

/-- Matcher for ``</?tag[^>]*>`` (flag `gi`), used by
`extractRemovedElements`; deletes the match (only existence is used). -/
def mTagMention (tag : List Char) (l : List Char) : Option (List Char × List Char) :=
  match eatc '<' l with
  | none => none
  | some r0 =>
    let r1 := match eatc '/' r0 with
              | some r => r
              | none => r0
    match eatCi tag r1 with
    | none => none
    | some (_, r2) =>
      match toFirst '>' r2 with
      | none => none
      | some (_, r3) => some ([], r3)

/-- Tail of the `extractRemovedAttributes` regex after `\s+`:
``attr\s*=\s*["'][^"']*["']``. -/
def attrMentionTail (attr : List Char) (l : List Char) : Option (List Char) :=
  match eatCi attr l with
  | none => none
  | some (_, r1) =>
    match eatc '=' (r1.dropWhile jsWs) with
    | none => none
    | some r3 =>
      match r3.dropWhile jsWs with
      | [] => none
      | q :: r5 =>
        if q == '"' || q == '\'' then
          match r5.dropWhile (fun c => c != '"' && c != '\'') with
          | [] => none
          | _ :: r8 => some r8
        else none

/-- Backtracking `\s+` before `attrMentionTail`. -/
def mAttrMentionGo (attr : List Char) (l : List Char) : Nat → Option (List Char)
  | 0 => none
  | k + 1 =>
    match attrMentionTail attr (l.drop (k + 1)) with
    | some r => some r
    | none => mAttrMentionGo attr l k

/-- Matcher for ``\s+attr\s*=\s*["'][^"']*["']`` (flag `gi`), used by
`extractRemovedAttributes`. -/
def mAttrMention (attr : List Char) (l : List Char) : Option (List Char × List Char) :=
  match l with
  | [] => none
  | c :: _ =>
    if jsWs c then (mAttrMentionGo attr l (l.takeWhile jsWs).length).map (fun r => (([] : List Char), r))
    else none

/-- Matcher for the structure validator's opening-tag regex `<(\w+)[^>]*>`;
captures the lowercased tag name. -/
def mOpenTagV (l : List Char) : Option (String × List Char) :=
  match l with
  | '<' :: rest =>
    let w := rest.takeWhile isWordChar
    if w.isEmpty then none
    else
      match toFirst '>' (rest.drop w.length) with
      | none => none
      | some (_, r) => some (String.mk (w.map Char.toLower), r)
  | _ => none

/-- Matcher for the structure validator's closing-tag regex `<\/(\w+)>`;
captures the lowercased tag name. -/
def mCloseTagV (l : List Char) : Option (String × List Char) :=
  match l with
  | '<' :: '/' :: rest =>
    let w := rest.takeWhile isWordChar
    if w.isEmpty then none
    else
      match rest.drop w.length with
      | '>' :: r => some (String.mk (w.map Char.toLower), r)
      | _ => none
  | _ => none

/-- Overwrite semantics of one field in a JavaScript object spread
`{...a, ...b}`: `b`'s field wins when present. -/
def ov {α : Type} (a b : Option α) : Option α :=
  match b with
  | some x => some x
  | none => a

/-- Field-wise JavaScript spread `{...a, ...b}` of two configurations. -/
def mergeConfig (a b : SanitizerConfig) : SanitizerConfig where
  elements := ov a.elements b.elements
  removeElements := ov a.removeElements b.removeElements
  allowedElements := ov a.allowedElements b.allowedElements
  disallowedElements := ov a.disallowedElements b.disallowedElements
  allowedAttributes := ov a.allowedAttributes b.allowedAttributes
  disallowedAttributes := ov a.disallowedAttributes b.disallowedAttributes
  allowedProtocols := ov a.allowedProtocols b.allowedProtocols
  allowDataUrls := ov a.allowDataUrls b.allowDataUrls
  stripComments := ov a.stripComments b.stripComments
  stripDoctype := ov a.stripDoctype b.stripDoctype

/-- `Sanitizer.normalizeConfig`: copy the MDN-style `elements` /
`removeElements` fields onto the canonical legacy fields when present. -/
def normalizeConfig (c : SanitizerConfig) : SanitizerConfig :=
  let c1 := match c.elements with
            | some e => { c with allowedElements := some e }
            | none => c
  match c1.removeElements with
  | some r => { c1 with disallowedElements := some r }
  | none => c1

/-- The `Sanitizer` constructor: start from the defaults, normalize, spread
the user configuration on top, then re-apply the user's
`disallowedElements` and finally the user's `removeElements`. -/
def mkSanitizer (user : SanitizerConfig) : SanitizerConfig :=
  let merged := mergeConfig (normalizeConfig DEFAULT_SANITIZER_CONFIG) user
  let m1 := match user.disallowedElements with
            | some d => { merged with disallowedElements := some d }
            | none => merged
  match user.removeElements with
  | some r => { m1 with disallowedElements := some r }
  | none => m1

/-- `new Sanitizer()` without arguments (the parameter defaults to
`DEFAULT_SANITIZER_CONFIG`). -/
def defaultSanitizer : SanitizerConfig :=
  mkSanitizer DEFAULT_SANITIZER_CONFIG

/-- JavaScript `String.prototype.toLowerCase`, character by character. -/
def strLower (s : String) : String :=
  String.mk (s.toList.map Char.toLower)

/-- `Sanitizer.isElementAllowed`. -/
def isElementAllowed (cfg : SanitizerConfig) (tagName : String) : Bool :=
  if (cfg.disallowedElements.getD []).contains (strLower tagName) then false
  else
    match cfg.allowedElements with
    | some l => l.contains (strLower tagName)
    | none => true

/-- `Sanitizer.isAttributeAllowed`. -/
def isAttributeAllowed (cfg : SanitizerConfig) (attributeName : String) : Bool :=
  if (cfg.disallowedAttributes.getD []).contains (strLower attributeName) then false
  else
    match cfg.allowedAttributes with
    | some l => l.contains (strLower attributeName)
    | none => true

/-- Per-tag passes of the blocked-element loop: first the
content-pair regex, then the self-closing regex. -/
def elementsPassOne (t : String) (l : List Char) : List Char :=
  scanReplace (mTagOpen t.toList) (scanReplace (mTagPair t.toList) l)

/-- The `disallowedElements.forEach` loop of `sanitize`/`removeUnsafe`. -/
def elementsPass (tags : List String) (l : List Char) : List Char :=
  tags.foldl (fun s t => elementsPassOne t s) l

/-- Per-attribute passes of the blocked-attribute loop: single-quoted
form first, then double-quoted. -/
def attrsPassOne (a : String) (l : List Char) : List Char :=
  scanReplace (mAttr a.toList '"') (scanReplace (mAttr a.toList '\'') l)

/-- The `disallowedAttributes.forEach` loop. -/
def attrsPass (attrs : List String) (l : List Char) : List Char :=
  attrs.foldl (fun s a => attrsPassOne a s) l

/-- `Sanitizer.sanitizeUrls`: single-quoted pass, then double-quoted pass. -/
def urlsPass (cfg : SanitizerConfig) (l : List Char) : List Char :=
  scanReplace (mUrl cfg '"') (scanReplace (mUrl cfg '\'') l)

/-- `Sanitizer.cleanupEmptyTags`: the `\s*` pair regex, then the `\s+` one. -/
def cleanupPass (l : List Char) : List Char :=
  scanReplace (mCleanup true) (scanReplace (mCleanup false) l)

/-- JavaScript `String.prototype.trim` over our whitespace set. -/
def trimChars (l : List Char) : List Char :=
  ((l.dropWhile jsWs).reverse.dropWhile jsWs).reverse

/-- The body of `Sanitizer.sanitize` after its input guard. -/
def sanitizeCore (cfg : SanitizerConfig) (l : List Char) : List Char :=
  let l1 := if cfg.stripDoctype = some true then scanReplace mDoctype l else l
  let l2 := if cfg.stripComments = some true then scanReplace mComment l1 else l1
  let l3 := match cfg.disallowedElements with
            | some tags => elementsPass tags l2
            | none => l2
  let l4 := match cfg.disallowedAttributes with
            | some attrs => attrsPass attrs l3
            | none => l3
  trimChars (cleanupPass (urlsPass cfg l4))

/-- `Sanitizer.sanitize` on an actual string (the `!html` guard makes the
empty string map to itself before any pass runs). -/
def sanitizeM (cfg : SanitizerConfig) (s : String) : String :=
  if s = "" then "" else String.mk (sanitizeCore cfg s.toList)

/-- The fixed unsafe element list of `Sanitizer.removeUnsafe`. -/
def unsafeElements : List String :=
  ["script", "style", "iframe", "object", "embed"]

/-- The fixed unsafe attribute list of `Sanitizer.removeUnsafe`. -/
def unsafeAttributes : List String :=
  ["onclick", "onload", "onerror", "onmouseover", "onmouseout", "onfocus",
   "onblur", "onchange", "onsubmit", "onkeydown", "onkeyup"]

/-- `Sanitizer.removeUnsafe` on character lists.  The method reads nothing
from `this.config`: it is policy-independent. -/
def removeUnsafeCore (l : List Char) : List Char :=
  let s1 := elementsPass unsafeElements l
  let s2 := attrsPass unsafeAttributes s1
  let s3 := scanReplace (mUnsafeUrl "javascript:".toList) s2
  let s4 := scanReplace (mUnsafeUrl "data:".toList) s3
  trimChars s4

/-- `Sanitizer.removeUnsafe` on strings. -/
def removeUnsafeStr (s : String) : String :=
  String.mk (removeUnsafeCore s.toList)

/-- A JavaScript value as passed to the top-level entry points: a string, or
one of the non-string values the spec discusses (`null`, `undefined`, any
other non-string). -/
inductive JSVal where
  | str (s : String)
  | nullV
  | undef
  | other
deriving DecidableEq

/-- `Sanitizer.sanitize` including its input guard
(`!html || typeof html !== "string"`). -/
def sanitizeJS (cfg : SanitizerConfig) (v : JSVal) : String :=
  match v with
  | .str s => sanitizeM cfg s
  | _ => ""

/-- `Sanitizer.removeUnsafe` applied to an arbitrary JavaScript value.  The
method has no input guard, so calling `.replace` on a non-string value
throws a `TypeError`, modelled as `none`. -/
def removeUnsafeJS (v : JSVal) : Option String :=
  match v with
  | .str s => some (removeUnsafeStr s)
  | _ => none

/-- The `options.sanitizer` argument of the `setHTML` family. -/
inductive SanitizerChoice where
  | dflt
  | inst (s : SanitizerConfig)
  | config (c : SanitizerConfig)

/-- `SetHTMLOptions` from the source. -/
structure SetHTMLOptions where
  sanitizer : Option SanitizerChoice := none

/-- The sanitizer-resolution prelude shared by `setHTML`/`setHTMLUnsafe`:
`"default"` or an absent option yields a fresh `new Sanitizer()`; an
instance is used as-is; a raw configuration is passed to the constructor. -/
def resolveSanitizer (opts : Option SetHTMLOptions) : SanitizerConfig :=
  match opts with
  | none => defaultSanitizer
  | some o =>
    match o.sanitizer with
    | none => defaultSanitizer
    | some .dflt => defaultSanitizer
    | some (.inst s) => s
    | some (.config c) => mkSanitizer c

/-- A DOM element sink, reduced to the `innerHTML` slot the library writes. -/
structure Element where
  innerHTML : String
deriving DecidableEq

/-- Top-level `setHTML(element, input, options)`: guard on a missing element
or non-string input, resolve the sanitizer, then always assign
`sanitizer.removeUnsafe(input)` to `element.innerHTML`. -/
def setHTML (element : Option Element) (input : JSVal) (options : Option SetHTMLOptions) :
    Option Element :=
  match element, input with
  | some e, .str s =>
    let _sanitizer := resolveSanitizer options
    some { e with innerHTML := removeUnsafeStr s }
  | _, _ => element

/-- Top-level `setHTMLUnsafe(element, input, options)`: same guard and
resolution, but assigns `sanitizer.sanitize(input)`. -/
def setHTMLUnsafe (element : Option Element) (input : JSVal) (options : Option SetHTMLOptions) :
    Option Element :=
  match element, input with
  | some e, .str s =>
    some { e with innerHTML := sanitizeM (resolveSanitizer options) s }
  | _, _ => element

/-- `ShadowRootProcessor`: a content slot plus the sanitizer built by its
constructor. -/
structure ShadowRootProcessor where
  content : String := ""
  sanitizer : SanitizerConfig
deriving DecidableEq

/-- Option resolution inside `ShadowRootProcessor`: an absent or
`"default"` option resolves to `this.sanitizer`. -/
def resolveShadow (p : ShadowRootProcessor) (opts : Option SetHTMLOptions) : SanitizerConfig :=
  match opts with
  | none => p.sanitizer
  | some o =>
    match o.sanitizer with
    | none => p.sanitizer
    | some .dflt => p.sanitizer
    | some (.inst s) => s
    | some (.config c) => mkSanitizer c

/-- `ShadowRootProcessor.setHTML`. -/
def shadowSetHTML (p : ShadowRootProcessor) (input : JSVal) (opts : Option SetHTMLOptions) :
    ShadowRootProcessor :=
  match input with
  | .str s =>
    let _sanitizer := resolveShadow p opts
    { p with content := removeUnsafeStr s }
  | _ => p

/-- `ShadowRootProcessor.setHTMLUnsafe`. -/
def shadowSetHTMLUnsafe (p : ShadowRootProcessor) (input : JSVal) (opts : Option SetHTMLOptions) :
    ShadowRootProcessor :=
  match input with
  | .str s => { p with content := sanitizeM (resolveShadow p opts) s }
  | _ => p

/-- `ShadowRootProcessor.getHTML`. -/
def shadowGetHTML (p : ShadowRootProcessor) : String :=
  p.content

/-- The condition `regex.test(original) && !regex.test(sanitized)` evaluated
with one shared global regex object: the first `test` leaves `lastIndex` at
the end of its match, and the second `test` resumes searching `sanitized`
from that index. -/
def testPairCond (m : List Char → Option (List Char × List Char))
    (origL sanL : List Char) : Bool :=
  match findEnd m origL 0 with
  | none => false
  | some e => (findEnd m (sanL.drop e) 0).isNone

/-- `NodeHTMLProcessor.extractRemovedElements`. -/
def extractRemovedElements (cfg : SanitizerConfig) (origL sanL : List Char) : List String :=
  (cfg.disallowedElements.getD []).filter
    (fun t => testPairCond (mTagMention t.toList) origL sanL)

/-- `NodeHTMLProcessor.extractRemovedAttributes`. -/
def extractRemovedAttributes (cfg : SanitizerConfig) (origL sanL : List Char) : List String :=
  (cfg.disallowedAttributes.getD []).filter
    (fun a => testPairCond (mAttrMention a.toList) origL sanL)

/-- The record returned by `processHTMLWithMetadata`. -/
structure SanitizationResult where
  sanitizedHTML : String
  wasModified : Bool
  removedElements : List String
  removedAttributes : List String
deriving DecidableEq

/-- `NodeHTMLProcessor.processHTMLWithMetadata` for a processor whose
constructor built the configuration `cfg`. -/
def processHTMLWithMetadata (cfg : SanitizerConfig) (html : String) : SanitizationResult :=
  let sanitized := sanitizeM cfg html
  { sanitizedHTML := sanitized
    wasModified := sanitized != html
    removedElements := extractRemovedElements cfg html.toList sanitized.toList
    removedAttributes := extractRemovedAttributes cfg html.toList sanitized.toList }

/-- `isSelfClosingTag` from NodeHTMLProcessor. -/
def isSelfClosingTag (tagName : String) : Bool :=
  (["area", "base", "br", "col", "embed", "hr", "img", "input", "link",
    "meta", "param", "source", "track", "wbr"] : List String).contains (strLower tagName)

/-- The result record of `validateHTMLStructure`. -/
structure VHTMLResult where
  isValid : Bool
  errors : List String
  warnings : List String
deriving DecidableEq

/-- One step of the closing-tag loop of `validateHTMLStructure`; the stack
holds its most recently pushed element first. -/
def closeStep (st : List String × List String) (tag : String) : List String × List String :=
  match st with
  | (errs, []) =>
    (errs ++ ["Closing tag \x27" ++ tag ++ "\x27 without matching opening tag"], [])
  | (errs, lastTag :: rest) =>
    if lastTag != tag then
      (errs ++ ["Mismatched tags: expected \x27" ++ lastTag ++ "\x27, found \x27" ++ tag ++ "\x27"], rest)
    else (errs, rest)

/-- `NodeHTMLProcessor.validateHTMLStructure`. -/
def validateHTMLStructure (html : String) : VHTMLResult :=
  let openTags := (scanCollect mOpenTagV html.toList).filter (fun t => !isSelfClosingTag t)
  let closeTags := scanCollect mCloseTagV html.toList
  let stack0 := (openTags.filter (fun t => !isSelfClosingTag t)).reverse
  let st := closeTags.foldl closeStep ([], stack0)
  let warnings :=
    if st.2.isEmpty then []
    else ["Unclosed tags: " ++ String.intercalate ", " st.2.reverse]
  { isValid := st.1.isEmpty
    errors := st.1
    warnings := warnings }

/-- A one-attribute anchor fragment `<a href='v'>` used to state the
URL-pass claims. -/
def wrapL (v : List Char) : List Char :=
  '<' :: 'a' :: ' ' :: 'h' :: 'r' :: 'e' :: 'f' :: '=' :: '\'' :: (v ++ ['\'', '>'])

/-- The removed-element computation as claim C8 words it: the name's tag
pattern matched the original text and no longer matches the output, both
searches starting at index 0 (no shared `lastIndex`). -/
def claimRemovedElements (cfg : SanitizerConfig) (origL sanL : List Char) : List String :=
  (cfg.disallowedElements.getD []).filter
    (fun t => (findEnd (mTagMention t.toList) origL 0).isSome &&
              (findEnd (mTagMention t.toList) sanL 0).isNone)

/-! ### Combinator decomposition lemmas -/

theorem eatc_some {c : Char} {l r : List Char} (h : eatc c l = some r) : l = c :: r := by
  cases l with
  | nil => simp [eatc] at h
  | cons d rest =>
    simp only [eatc] at h
    split at h
    · rename_i hd
      simp only [Option.some.injEq] at h
      subst h
      simp_all
    · exact absurd h (by simp)

theorem eatSeq_decomp {p l r : List Char} (h : eatSeq p l = some r) :
    ∃ q, l = q ++ r ∧ q.length = p.length := by
  induction p generalizing l with
  | nil =>
    simp only [eatSeq, Option.some.injEq] at h
    exact ⟨[], by simp [h], rfl⟩
  | cons a ps ih =>
    cases l with
    | nil => simp [eatSeq] at h
    | cons d rest =>
      simp only [eatSeq] at h
      split at h
      · obtain ⟨q, hq, hlen⟩ := ih h
        exact ⟨d :: q, by simp [hq], by simp [hlen]⟩
      · exact absurd h (by simp)

theorem eatCi_decomp {p l con r : List Char} (h : eatCi p l = some (con, r)) :
    l = con ++ r ∧ con.length = p.length := by
  induction p generalizing l con with
  | nil =>
    simp only [eatCi, Option.some.injEq, Prod.mk.injEq] at h
    obtain ⟨h1, h2⟩ := h
    subst h1; subst h2; simp
  | cons a ps ih =>
    cases l with
    | nil => simp [eatCi] at h
    | cons d rest =>
      simp only [eatCi] at h
      split at h
      · cases hrec : eatCi ps rest with
        | none =>
          rw [hrec] at h
          exact absurd h (by simp)
        | some pr =>
          rw [hrec] at h
          simp only [Option.map_some', Option.some.injEq, Prod.mk.injEq] at h
          obtain ⟨h1, h2⟩ := h
          obtain ⟨hq, hlen⟩ := @ih rest pr.1 (by rw [hrec, ← h2])
          subst h1
          exact ⟨by simp [hq], by simp [hlen]⟩
      · exact absurd h (by simp)

theorem toFirst_decomp {s : Char} {l con r : List Char} (h : toFirst s l = some (con, r)) :
    l = con ++ r ∧ ∃ pre, con = pre ++ [s] := by
  induction l generalizing con with
  | nil => simp [toFirst] at h
  | cons c rest ih =>
    simp only [toFirst] at h
    split at h
    · rename_i hc
      simp only [Option.some.injEq, Prod.mk.injEq] at h
      obtain ⟨h1, h2⟩ := h
      subst h1; subst h2
      exact ⟨by simp_all, [], by simp_all⟩
    · cases hrec : toFirst s rest with
      | none =>
        rw [hrec] at h
        exact absurd h (by simp)
      | some pr =>
        rw [hrec] at h
        simp only [Option.map_some', Option.some.injEq, Prod.mk.injEq] at h
        obtain ⟨h1, h2⟩ := h
        obtain ⟨hq, pre, hpre⟩ := @ih pr.1 (by rw [hrec, ← h2])
        subst h1
        exact ⟨by simp [hq], c :: pre, by simp [hpre]⟩

theorem findCi_decomp {p l con r : List Char} (h : findCi p l = some (con, r)) :
    l = con ++ r := by
  induction l generalizing con with
  | nil =>
    simp only [findCi] at h
    cases hrec : eatCi p [] with
    | none =>
      rw [hrec] at h
      exact absurd h (by simp)
    | some pr =>
      rw [hrec] at h
      simp only [Option.map_some', Option.some.injEq, Prod.mk.injEq] at h
      obtain ⟨h1, h2⟩ := h
      exact (eatCi_decomp (p := p) (by rw [hrec, ← h1, ← h2])).1
  | cons c rest ih =>
    simp only [findCi] at h
    cases hm : eatCi p (c :: rest) with
    | some pr =>
      rw [hm] at h
      simp only [Option.some.injEq] at h
      exact (@eatCi_decomp p (c :: rest) con r (by rw [hm, h])).1
    | none =>
      rw [hm] at h
      cases hrec : findCi p rest with
      | none =>
        rw [hrec] at h
        exact absurd h (by simp)
      | some pr =>
        rw [hrec] at h
        simp only [Option.map_some', Option.some.injEq, Prod.mk.injEq] at h
        obtain ⟨h1, h2⟩ := h
        have := @ih pr.1 (by rw [hrec, ← h2])
        subst h1
        simp [this]

theorem findSeq_decomp {p l r : List Char} (h : findSeq p l = some r) :
    ∃ q, l = q ++ r := by
  induction l with
  | nil =>
    simp only [findSeq] at h
    obtain ⟨q, hq, _⟩ := eatSeq_decomp h
    exact ⟨q, hq⟩
  | cons c rest ih =>
    simp only [findSeq] at h
    cases hm : eatSeq p (c :: rest) with
    | some rr =>
      rw [hm] at h
      simp only [Option.some.injEq] at h
      obtain ⟨q, hq, _⟩ := eatSeq_decomp (l := c :: rest) (by rw [hm, h])
      exact ⟨q, hq⟩
    | none =>
      rw [hm] at h
      obtain ⟨q, hq⟩ := ih h
      exact ⟨c :: q, by simp [hq]⟩

theorem dropWhile_sfx (p : Char → Bool) (l : List Char) : l.dropWhile p <:+ l :=
  ⟨l.takeWhile p, List.takeWhile_append_dropWhile p l⟩

/-! ### Scanner lemmas -/

theorem scanReplaceF_congr {m : List Char → Option (List Char × List Char)} :
    ∀ f g l, l.length ≤ f → l.length ≤ g → scanReplaceF m f l = scanReplaceF m g l := by
  intro f
  induction f with
  | zero =>
    intro g l hf _
    cases l with
    | nil => cases g <;> rfl
    | cons c cs => simp at hf
  | succ f ih =>
    intro g l hf hg
    cases l with
    | nil => cases g <;> rfl
    | cons c cs =>
      cases g with
      | zero => simp at hg
      | succ g =>
        simp only [List.length_cons] at hf hg
        cases hm : m (c :: cs) with
        | none =>
          simp only [scanReplaceF, hm]
          rw [ih g cs (by omega) (by omega)]
        | some pr =>
          obtain ⟨rep, rest⟩ := pr
          simp only [scanReplaceF, hm]
          by_cases hlt : rest.length < (c :: cs).length
          · simp only [if_pos hlt]
            simp only [List.length_cons] at hlt
            rw [ih g rest (by omega) (by omega)]
          · simp only [if_neg hlt]
            rw [ih g cs (by omega) (by omega)]

theorem scanReplace_nil (m : List Char → Option (List Char × List Char)) :
    scanReplace m [] = [] := rfl

theorem scanReplace_cons_none {m : List Char → Option (List Char × List Char)}
    {c : Char} {cs : List Char} (h : m (c :: cs) = none) :
    scanReplace m (c :: cs) = c :: scanReplace m cs := by
  show scanReplaceF m (cs.length + 1) (c :: cs) = c :: scanReplaceF m cs.length cs
  simp only [scanReplaceF, h]

theorem scanReplace_cons_some {m : List Char → Option (List Char × List Char)}
    {c : Char} {cs rep rest : List Char} (h : m (c :: cs) = some (rep, rest))
    (hlen : rest.length < cs.length + 1) :
    scanReplace m (c :: cs) = rep ++ scanReplace m rest := by
  show scanReplaceF m (cs.length + 1) (c :: cs) = rep ++ scanReplaceF m rest.length rest
  simp only [scanReplaceF, h]
  rw [if_pos (by simpa using hlen)]
  rw [scanReplaceF_congr cs.length rest.length rest (by omega) le_rfl]

/-- A matcher that deletes its match: the replacement is empty and the rest
is a strictly shorter suffix of the input. -/
def IsDeleter (m : List Char → Option (List Char × List Char)) : Prop :=
  ∀ l rep rest, m l = some (rep, rest) →
    rep = [] ∧ rest <:+ l ∧ rest.length < l.length

theorem scanDel_sublist {m : List Char → Option (List Char × List Char)}
    (hm : IsDeleter m) : ∀ l, (scanReplace m l).Sublist l := by
  suffices H : ∀ n l, l.length = n → (scanReplace m l).Sublist l from
    fun l => H l.length l rfl
  intro n
  induction n using Nat.strong_induction_on with
  | _ n ih =>
  intro l hn
  subst hn
  cases l with
  | nil => simp [scanReplace_nil]
  | cons c cs =>
    cases hmatch : m (c :: cs) with
    | none =>
      rw [scanReplace_cons_none hmatch]
      exact List.Sublist.cons₂ c (ih cs.length (by simp) cs rfl)
    | some pr =>
      obtain ⟨rep, rest⟩ := pr
      obtain ⟨hrep, hsfx, hlen⟩ := hm _ _ _ hmatch
      rw [scanReplace_cons_some hmatch (by simpa using hlen), hrep]
      have h1 : (scanReplace m rest).Sublist rest := ih rest.length hlen rest rfl
      exact List.nil_append (scanReplace m rest) ▸ h1.trans hsfx.sublist

theorem scan_id_of_none {m : List Char → Option (List Char × List Char)}
    {P : List Char → Prop} (hstep : ∀ c cs, P (c :: cs) → P cs)
    (hnone : ∀ l, P l → m l = none) : ∀ l, P l → scanReplace m l = l := by
  intro l
  induction l with
  | nil => intro _; simp [scanReplace_nil]
  | cons c cs ih =>
    intro hp
    rw [scanReplace_cons_none (hnone _ hp), ih (hstep _ _ hp)]

/-- All characters of `l` lie in the character set `S`. -/
def inSet (S : List Char) (l : List Char) : Prop :=
  ∀ c ∈ l, c ∈ S

theorem inSet_tail {S : List Char} {c : Char} {cs : List Char}
    (h : inSet S (c :: cs)) : inSet S cs :=
  fun d hd => h d (List.mem_cons_of_mem c hd)

theorem inSet_of_sublist {S : List Char} {l l' : List Char}
    (hs : l'.Sublist l) (h : inSet S l) : inSet S l' :=
  fun d hd => h d (hs.mem hd)

theorem inSet_of_sfx {S : List Char} {l l' : List Char}
    (hs : l' <:+ l) (h : inSet S l) : inSet S l' :=
  inSet_of_sublist hs.sublist h

theorem inSet_append_right {S : List Char} {a b : List Char}
    (h : inSet S (a ++ b)) : inSet S b :=
  fun d hd => h d (List.mem_append_right a hd)

theorem inSet_drop {S : List Char} {l : List Char} (n : Nat)
    (h : inSet S l) : inSet S (l.drop n) :=
  fun d hd => h d (List.mem_of_mem_drop hd)

/-! ### Suffix facts for the individual matchers -/

theorem eatc_sfx {c : Char} {l r : List Char} (h : eatc c l = some r) : r <:+ l :=
  ⟨[c], (eatc_some h).symm⟩

theorem eatSeq_sfx {p l r : List Char} (h : eatSeq p l = some r) : r <:+ l := by
  obtain ⟨q, hq, _⟩ := eatSeq_decomp h
  exact ⟨q, hq.symm⟩

theorem eatCi_sfx {p l con r : List Char} (h : eatCi p l = some (con, r)) : r <:+ l :=
  ⟨con, (eatCi_decomp h).1.symm⟩

theorem toFirst_sfx {s : Char} {l con r : List Char} (h : toFirst s l = some (con, r)) :
    r <:+ l :=
  ⟨con, (toFirst_decomp h).1.symm⟩

theorem findCi_sfx {p l con r : List Char} (h : findCi p l = some (con, r)) : r <:+ l :=
  ⟨con, (findCi_decomp h).symm⟩

theorem sfx_len_lt {rest r1 : List Char} {c : Char} (hs : rest <:+ r1) :
    rest.length < (c :: r1).length := by
  have := hs.length_le
  simp only [List.length_cons]
  omega

theorem deleter_mTagPair (tag : List Char) : IsDeleter (mTagPair tag) := by
  intro l rep rest h
  simp only [mTagPair] at h
  split at h
  · exact absurd h (by simp)
  rename_i r0 h0
  split at h
  · exact absurd h (by simp)
  rename_i con r1 h1
  split at h
  case isFalse => exact absurd h (by simp)
  split at h
  · exact absurd h (by simp)
  rename_i con2 r2 h2
  split at h
  · exact absurd h (by simp)
  rename_i con3 r3 h3
  simp only [Option.some.injEq, Prod.mk.injEq] at h
  obtain ⟨hrep, hrest⟩ := h
  subst hrest
  have hs : r3 <:+ r0 :=
    ((findCi_sfx h3).trans (toFirst_sfx h2)).trans (eatCi_sfx h1)
  refine ⟨hrep.symm, hs.trans (eatc_sfx h0), ?_⟩
  rw [eatc_some h0]
  exact sfx_len_lt hs

theorem deleter_mTagOpen (tag : List Char) : IsDeleter (mTagOpen tag) := by
  intro l rep rest h
  simp only [mTagOpen] at h
  split at h
  · exact absurd h (by simp)
  rename_i r0 h0
  split at h
  · exact absurd h (by simp)
  rename_i con r1 h1
  split at h
  case isFalse => exact absurd h (by simp)
  split at h
  · exact absurd h (by simp)
  rename_i con2 r2 h2
  simp only [Option.some.injEq, Prod.mk.injEq] at h
  obtain ⟨hrep, hrest⟩ := h
  subst hrest
  have hs : r2 <:+ r0 := (toFirst_sfx h2).trans (eatCi_sfx h1)
  refine ⟨hrep.symm, hs.trans (eatc_sfx h0), ?_⟩
  rw [eatc_some h0]
  exact sfx_len_lt hs

theorem cleanupAttempt_sfx {cap ac r : List Char} {b : Bool}
    (h : cleanupAttempt cap ac b = some r) : r <:+ ac := by
  simp only [cleanupAttempt] at h
  split at h
  · exact absurd h (by simp)
  rename_i con1 r1 h1
  split at h
  · exact absurd h (by simp)
  split at h
  · exact absurd h (by simp)
  rename_i r3 h2
  split at h
  · exact absurd h (by simp)
  rename_i con3 r4 h3
  have hr : r <:+ r4 := eatc_sfx h
  exact (((hr.trans (eatCi_sfx h3)).trans (eatSeq_sfx h2)).trans
    (dropWhile_sfx jsWs r1)).trans (toFirst_sfx h1)

theorem cleanupGo_sfx {rest r : List Char} {b : Bool} :
    ∀ k, cleanupGo rest b k = some r → r <:+ rest := by
  intro k
  induction k with
  | zero => intro h; simp [cleanupGo] at h
  | succ k ih =>
    intro h
    simp only [cleanupGo] at h
    split at h
    · rename_i rr ha
      simp only [Option.some.injEq] at h
      subst h
      exact (cleanupAttempt_sfx ha).trans (List.drop_suffix (k + 1) rest)
    · exact ih h

theorem deleter_mCleanup (b : Bool) : IsDeleter (mCleanup b) := by
  intro l rep rest h
  cases l with
  | nil => simp [mCleanup] at h
  | cons c cs =>
    simp only [mCleanup] at h
    split at h
    · rename_i hc
      subst hc
      cases hg : cleanupGo cs b (cs.takeWhile isWordChar).length with
      | none => rw [hg] at h; exact absurd h (by simp)
      | some r =>
        rw [hg] at h
        simp only [Option.map_some', Option.some.injEq, Prod.mk.injEq] at h
        obtain ⟨hrep, hrest⟩ := h
        subst hrest
        have hs := cleanupGo_sfx _ hg
        exact ⟨hrep.symm, hs.trans (List.suffix_cons '<' cs), sfx_len_lt hs⟩
    · exact absurd h (by simp)

/-! ### Character-set facts for the fixed input `<div></div><p>x</p>` -/

/-- The characters occurring in `"<div></div><p>x</p>"`. -/
def S0 : List Char := ['<', 'd', 'i', 'v', '>', '/', 'p', 'x']

theorem doctypeChars : "<!DOCTYPE".toList = ['<', '!', 'D', 'O', 'C', 'T', 'Y', 'P', 'E'] := rfl

theorem commentChars : "<!--".toList = ['<', '!', '-', '-'] := rfl

theorem hrefChars : "href".toList = ['h', 'r', 'e', 'f'] := rfl

theorem srcChars : "src".toList = ['s', 'r', 'c'] := rfl

theorem S0_facts : ∀ c ∈ S0, ciEq c '!' = false ∧ jsWs c = false ∧
    ciEq c 'h' = false ∧ ciEq c 's' = false ∧ (c == '!') = false := by decide

theorem mDoctype_none {l : List Char} (h : inSet S0 l) : mDoctype l = none := by
  have hci : eatCi "<!DOCTYPE".toList l = none := by
    rw [doctypeChars]
    cases l with
    | nil => rfl
    | cons c cs =>
      cases cs with
      | nil => simp [eatCi]
      | cons d ds =>
        have hd : ciEq d '!' = false := (S0_facts d (h d (by simp))).1
        simp [eatCi, hd]
  rw [doctypeChars] at hci
  simp [mDoctype, hci]

theorem mComment_none {l : List Char} (h : inSet S0 l) : mComment l = none := by
  have hci : eatSeq "<!--".toList l = none := by
    rw [commentChars]
    cases l with
    | nil => rfl
    | cons c cs =>
      cases cs with
      | nil => simp [eatSeq]
      | cons d ds =>
        have hd : (d == '!') = false := (S0_facts d (h d (by simp))).2.2.2.2
        simp [eatSeq, hd]
  rw [commentChars] at hci
  simp [mComment, hci]

theorem mAttr_none {a : List Char} {q : Char} {l : List Char} (h : inSet S0 l) :
    mAttr a q l = none := by
  cases l with
  | nil => rfl
  | cons c cs =>
    have hc : jsWs c = false := (S0_facts c (h c (by simp))).2.1
    simp [mAttr, hc]

theorem mUrl_none' {cfg : SanitizerConfig} {q : Char} {l : List Char} (h : inSet S0 l) :
    mUrl cfg q l = none := by
  cases l with
  | nil => rfl
  | cons c cs =>
    have hh : ciEq c 'h' = false := (S0_facts c (h c (by simp))).2.2.1
    have hs : ciEq c 's' = false := (S0_facts c (h c (by simp))).2.2.2.1
    simp [mUrl, hrefChars, srcChars, eatCi, hh, hs]

theorem takeWhile_ws_nil {l : List Char} (h : inSet S0 l) : l.takeWhile jsWs = [] := by
  cases l with
  | nil => rfl
  | cons c cs => simp [List.takeWhile_cons, (S0_facts c (h c (by simp))).2.1]

theorem cleanupAttempt_true_none {cap ac : List Char} (h : inSet S0 ac) :
    cleanupAttempt cap ac true = none := by
  simp only [cleanupAttempt]
  split
  · rfl
  rename_i con1 r1 h1
  have h2 : r1.takeWhile jsWs = [] := takeWhile_ws_nil (inSet_of_sfx (toFirst_sfx h1) h)
  simp [h2]

theorem cleanupGo_true_none {rest : List Char} (h : inSet S0 rest) :
    ∀ k, cleanupGo rest true k = none := by
  intro k
  induction k with
  | zero => rfl
  | succ k ih =>
    simp only [cleanupGo, cleanupAttempt_true_none (inSet_drop (k + 1) h), ih]

theorem mCleanupTrue_none {l : List Char} (h : inSet S0 l) : mCleanup true l = none := by
  cases l with
  | nil => rfl
  | cons c cs =>
    simp only [mCleanup]
    split
    · simp [cleanupGo_true_none (inSet_tail h)]
    · rfl

/-! ### Shape of a cleanup match -/

theorem eatSeq_eq {p l r : List Char} (h : eatSeq p l = some r) : l = p ++ r := by
  induction p generalizing l with
  | nil =>
    simp only [eatSeq, Option.some.injEq] at h
    simp [h]
  | cons a ps ih =>
    cases l with
    | nil => simp [eatSeq] at h
    | cons d rest =>
      simp only [eatSeq] at h
      split at h
      · rename_i hd
        have : d = a := by simpa using hd
        subst this
        simp [ih h]
      · exact absurd h (by simp)

theorem cleanupGo_shape {rest0 r : List Char} :
    ∀ k, cleanupGo rest0 false k = some r →
      ∃ M, rest0 = M ++ r ∧ (['>', '<', '/', '>'] : List Char).Sublist M := by
  intro k
  induction k with
  | zero => intro h; simp [cleanupGo] at h
  | succ k ih =>
    intro h
    simp only [cleanupGo] at h
    split at h
    · rename_i rr ha
      simp only [Option.some.injEq] at h
      subst h
      simp only [cleanupAttempt] at ha
      split at ha
      · exact absurd ha (by simp)
      rename_i con1 r1 h1
      rw [if_neg (by simp)] at ha
      split at ha
      · exact absurd ha (by simp)
      rename_i r3 h2
      split at ha
      · exact absurd ha (by simp)
      rename_i con2 r4 h3
      set W := r1.takeWhile jsWs with hW
      obtain ⟨pre1, hpre1⟩ := (toFirst_decomp h1).2
      have hac := (toFirst_decomp h1).1
      have hr1 : r1 = W ++ ('<' :: '/' :: r3) := by
        rw [hW, show ('<' :: '/' :: r3 : List Char) = ['<', '/'] ++ r3 from rfl,
          ← eatSeq_eq h2, List.takeWhile_append_dropWhile]
      have hr3 := (eatCi_decomp h3).1
      have hr4 := eatc_some ha
      refine ⟨rest0.take (k + 1) ++ (pre1 ++ ('>' :: (W ++ ('<' :: '/' :: (con2 ++ ['>']))))),
        ?_, ?_⟩
      · conv_lhs => rw [← List.take_append_drop (k + 1) rest0]
        rw [hac, hpre1, hr1, hr3, hr4]
        simp
      · have h5 : (['>', '<', '/', '>'] : List Char).Sublist
            ('>' :: (W ++ ('<' :: '/' :: (con2 ++ ['>'])))) := by
          refine List.cons_sublist_cons.mpr ?_
          refine List.Sublist.trans ?_ (List.sublist_append_right W _)
          refine List.cons_sublist_cons.mpr ?_
          refine List.cons_sublist_cons.mpr ?_
          exact List.sublist_append_right con2 ['>']
        have h6 : ('>' :: (W ++ ('<' :: '/' :: (con2 ++ ['>'])))).Sublist
            ((rest0.take (k + 1) ++ pre1) ++ ('>' :: (W ++ ('<' :: '/' :: (con2 ++ ['>']))))) :=
          List.sublist_append_right _ _
        refine (h5.trans h6).trans ?_
        simp [List.append_assoc]
    · exact ih h

theorem mCleanupF_shape {l rep rest : List Char} (h : mCleanup false l = some (rep, rest)) :
    rep = [] ∧ ∃ M, l = M ++ rest ∧ (['<', '>', '<', '/', '>'] : List Char).Sublist M := by
  cases l with
  | nil => simp [mCleanup] at h
  | cons c cs =>
    simp only [mCleanup] at h
    split at h
    · rename_i hc
      subst hc
      cases hg : cleanupGo cs false (cs.takeWhile isWordChar).length with
      | none => rw [hg] at h; exact absurd h (by simp)
      | some r =>
        rw [hg] at h
        simp only [Option.map_some', Option.some.injEq, Prod.mk.injEq] at h
        obtain ⟨hrep, hrest⟩ := h
        subst hrest
        obtain ⟨M, hM, hsub⟩ := cleanupGo_shape _ hg
        exact ⟨hrep.symm, '<' :: M, by simp [hM], List.cons_sublist_cons.mpr hsub⟩
    · exact absurd h (by simp)

/-! ### The empty `<div></div>` pair cannot survive or be spliced together -/

/-- The characters of the already-empty pair `"<div></div>"`. -/
def divPairChars : List Char :=
  ['<', 'd', 'i', 'v', '>', '<', '/', 'd', 'i', 'v', '>']

/-- The characters of the fixed input `"<div></div><p>x</p>"`. -/
def s0Chars : List Char := "<div></div><p>x</p>".toList

theorem s0Chars_inSet : inSet S0 s0Chars := by
  show ∀ c ∈ s0Chars, c ∈ S0
  decide

theorem mCleanup_false_head (z : List Char) :
    mCleanup false (divPairChars ++ z) = some ([], z) := rfl

theorem c10_split_dec : ∀ k, k < 11 → 0 < k →
    ¬ ((divPairChars.take k ++ (['<', '>', '<', '/', '>'] ++ divPairChars.drop k)).Sublist
        s0Chars) := by decide

theorem c10_G : ∀ n l p1 p2 u, l.length = n → (p1 ++ l).Sublist s0Chars →
    divPairChars = p1 ++ p2 → p2 ≠ [] →
    scanReplace (mCleanup false) l = p2 ++ u → p1 ≠ [] → p2 <+: l := by
  intro n
  induction n using Nat.strong_induction_on with
  | _ n ih =>
  intro l p1 p2 u hn hsub hsplit hp2 hscan hp1
  subst hn
  cases l with
  | nil =>
    rw [scanReplace_nil] at hscan
    exact absurd (List.append_eq_nil.mp hscan.symm).1 hp2
  | cons c cs =>
    cases hmatch : mCleanup false (c :: cs) with
    | none =>
      rw [scanReplace_cons_none hmatch] at hscan
      cases p2 with
      | nil => exact absurd rfl hp2
      | cons a p2' =>
        simp only [List.cons_append, List.cons.injEq] at hscan
        obtain ⟨hac, hscan'⟩ := hscan
        subst hac
        cases p2' with
        | nil => exact ⟨cs, rfl⟩
        | cons b p2'' =>
          have hpre := ih cs.length (by simp) cs (p1 ++ [c]) (b :: p2'') u rfl
            (by simpa [List.append_assoc] using hsub)
            (by simpa [List.append_assoc] using hsplit)
            (by simp) hscan' (by simp)
          obtain ⟨t, ht⟩ := hpre
          exact ⟨t, by rw [List.cons_append, ht]⟩
    | some pr =>
      obtain ⟨rep, rest⟩ := pr
      obtain ⟨hrep, M, hM, hfive⟩ := mCleanupF_shape hmatch
      subst hrep
      have hMlen : 5 ≤ M.length := by simpa using hfive.length_le
      have hlen : rest.length < (c :: cs).length := by
        have := congrArg List.length hM
        simp at this
        simp only [List.length_cons]
        omega
      rw [scanReplace_cons_some hmatch hlen, List.nil_append] at hscan
      exfalso
      have hp2rest : p2.Sublist rest := by
        have h1 : (p2 ++ u).Sublist rest :=
          hscan ▸ scanDel_sublist (deleter_mCleanup false) rest
        exact (List.sublist_append_left p2 u).trans h1
      have hsub' : (p1 ++ (M ++ rest)).Sublist s0Chars := by rw [← hM]; exact hsub
      have hbig : (p1 ++ (['<', '>', '<', '/', '>'] ++ p2)).Sublist s0Chars :=
        ((hfive.append hp2rest).append_left p1).trans hsub'
      have hk1 : p1 = divPairChars.take p1.length := by rw [hsplit, List.take_left]
      have hk2 : p2 = divPairChars.drop p1.length := by rw [hsplit, List.drop_left]
      have hklt : p1.length < 11 := by
        have hlen11 : p1.length + p2.length = 11 := by
          have := congrArg List.length hsplit
          simpa [divPairChars] using this.symm
        cases p2 with
        | nil => exact absurd rfl hp2
        | cons _ _ => simp at hlen11; omega
      have hk0 : 0 < p1.length := by
        cases p1 with
        | nil => exact absurd rfl hp1
        | cons _ _ => simp
      exact c10_split_dec p1.length hklt hk0 (by rw [← hk1, ← hk2]; exact hbig)

theorem c10_T : ∀ n l, l.length = n → l.Sublist s0Chars →
    ¬ divPairChars <:+: scanReplace (mCleanup false) l := by
  intro n
  induction n using Nat.strong_induction_on with
  | _ n ih =>
  intro l hn hsub hinf
  subst hn
  cases l with
  | nil =>
    rw [scanReplace_nil] at hinf
    have := hinf.sublist.length_le
    simp [divPairChars] at this
  | cons c cs =>
    cases hmatch : mCleanup false (c :: cs) with
    | some pr =>
      obtain ⟨rep, rest⟩ := pr
      obtain ⟨hrep, M, hM, hfive⟩ := mCleanupF_shape hmatch
      subst hrep
      have hMlen : 5 ≤ M.length := by simpa using hfive.length_le
      have hlen : rest.length < (c :: cs).length := by
        have := congrArg List.length hM
        simp at this
        simp only [List.length_cons]
        omega
      rw [scanReplace_cons_some hmatch hlen, List.nil_append] at hinf
      have hrsub : rest.Sublist s0Chars := by
        have hsfx : rest <:+ (c :: cs) := ⟨M, hM.symm⟩
        exact hsfx.sublist.trans hsub
      exact ih rest.length hlen rest rfl hrsub hinf
    | none =>
      rw [scanReplace_cons_none hmatch] at hinf
      rcases List.infix_cons_iff.mp hinf with hpre | hinf'
      · have hd : divPairChars =
            '<' :: ['d', 'i', 'v', '>', '<', '/', 'd', 'i', 'v', '>'] := rfl
        rw [hd] at hpre
        obtain ⟨hc, hpre'⟩ := List.cons_prefix_cons.mp hpre
        obtain ⟨u, hu⟩ := hpre'
        have hG := c10_G cs.length cs ['<']
          (['d', 'i', 'v', '>', '<', '/', 'd', 'i', 'v', '>']) u rfl
          (by rw [show (['<'] ++ cs : List Char) = '<' :: cs from rfl, hc]; exact hsub)
          rfl (by simp) hu.symm (by simp)
        obtain ⟨z, hz⟩ := hG
        have hhead : mCleanup false (c :: cs) = some ([], z) := by
          rw [← hc, ← hz]
          exact mCleanup_false_head z
        rw [hmatch] at hhead
        exact absurd hhead (by simp)
      · exact ih cs.length (by simp) cs rfl ((List.suffix_cons c cs).sublist.trans hsub) hinf'

/-! ### Assembling the pipeline on the fixed input -/

theorem scanS0_id {m : List Char → Option (List Char × List Char)}
    (hm : ∀ l, inSet S0 l → m l = none) :
    ∀ l, inSet S0 l → scanReplace m l = l :=
  scan_id_of_none (fun _ _ h => inSet_tail h) hm

theorem elementsPassOne_sublist (t : String) (l : List Char) :
    (elementsPassOne t l).Sublist l :=
  (scanDel_sublist (deleter_mTagOpen t.toList) _).trans
    (scanDel_sublist (deleter_mTagPair t.toList) l)

theorem elementsPass_sublist (tags : List String) : ∀ l, (elementsPass tags l).Sublist l := by
  induction tags with
  | nil => intro l; simp [elementsPass]
  | cons t ts ih =>
    intro l
    show (elementsPass ts (elementsPassOne t l)).Sublist l
    exact (ih (elementsPassOne t l)).trans (elementsPassOne_sublist t l)

theorem attrsPassOne_id {l : List Char} (a : String) (h : inSet S0 l) :
    attrsPassOne a l = l := by
  unfold attrsPassOne
  rw [scanS0_id (fun _ hh => mAttr_none hh) l h, scanS0_id (fun _ hh => mAttr_none hh) l h]

theorem attrsPass_id {l : List Char} (attrs : List String) (h : inSet S0 l) :
    attrsPass attrs l = l := by
  induction attrs with
  | nil => rfl
  | cons a as ih =>
    show attrsPass as (attrsPassOne a l) = l
    rw [attrsPassOne_id a h, ih]

theorem urlsPass_id {l : List Char} (cfg : SanitizerConfig) (h : inSet S0 l) :
    urlsPass cfg l = l := by
  unfold urlsPass
  rw [scanS0_id (fun _ hh => mUrl_none' hh) l h, scanS0_id (fun _ hh => mUrl_none' hh) l h]

theorem dropWhile_ws_id {l : List Char} (h : inSet S0 l) : l.dropWhile jsWs = l := by
  cases l with
  | nil => rfl
  | cons c cs => simp [List.dropWhile_cons, (S0_facts c (h c (by simp))).2.1]

theorem trimChars_id {l : List Char} (h : inSet S0 l) : trimChars l = l := by
  unfold trimChars
  rw [dropWhile_ws_id h]
  rw [dropWhile_ws_id (fun c hc => h c (List.mem_reverse.mp hc)), List.reverse_reverse]

theorem c10_tail (P : SanitizerConfig) (t : List Char) (ht : t.Sublist s0Chars) :
    ¬ divPairChars <:+:
      trimChars (cleanupPass (urlsPass P
        (match P.disallowedAttributes with
         | some attrs => attrsPass attrs t
         | none => t))) := by
  have htS : inSet S0 t := inSet_of_sublist ht s0Chars_inSet
  have h4 : (match P.disallowedAttributes with
             | some attrs => attrsPass attrs t
             | none => t) = t := by
    cases P.disallowedAttributes with
    | none => rfl
    | some attrs => exact attrsPass_id attrs htS
  rw [h4, urlsPass_id P htS]
  unfold cleanupPass
  have hr1 : (scanReplace (mCleanup false) t).Sublist s0Chars :=
    (scanDel_sublist (deleter_mCleanup false) t).trans ht
  have hr1S : inSet S0 (scanReplace (mCleanup false) t) := inSet_of_sublist hr1 s0Chars_inSet
  rw [scanS0_id (fun _ hh => mCleanupTrue_none hh) _ hr1S, trimChars_id hr1S]
  exact c10_T t.length t rfl ht

theorem c10_core (P : SanitizerConfig) : ¬ divPairChars <:+: sanitizeCore P s0Chars := by
  have hD : scanReplace mDoctype s0Chars = s0Chars :=
    scanS0_id (fun _ hh => mDoctype_none hh) s0Chars s0Chars_inSet
  have hC : scanReplace mComment s0Chars = s0Chars :=
    scanS0_id (fun _ hh => mComment_none hh) s0Chars s0Chars_inSet
  unfold sanitizeCore
  dsimp only
  rw [show (if P.stripDoctype = some true then scanReplace mDoctype s0Chars else s0Chars)
      = s0Chars by rw [hD, ite_self]]
  rw [show (if P.stripComments = some true then scanReplace mComment s0Chars else s0Chars)
      = s0Chars by rw [hC, ite_self]]
  cases hE : P.disallowedElements with
  | none => exact c10_tail P s0Chars (List.Sublist.refl s0Chars)
  | some tags => exact c10_tail P (elementsPass tags s0Chars) (elementsPass_sublist tags s0Chars)

/-! ### Symbolic-evaluation helpers -/

theorem takeWhile_append_of_all {p : Char → Bool} {v w : List Char}
    (h : ∀ c ∈ v, p c = true) : (v ++ w).takeWhile p = v ++ w.takeWhile p := by
  induction v with
  | nil => simp
  | cons c cs ih =>
    have hc := h c (by simp)
    simp [List.takeWhile_cons, hc, ih (fun d hd => h d (by simp [hd]))]

theorem dropWhile_append_of_all {p : Char → Bool} {v w : List Char}
    (h : ∀ c ∈ v, p c = true) : (v ++ w).dropWhile p = w.dropWhile p := by
  induction v with
  | nil => simp
  | cons c cs ih =>
    have hc := h c (by simp)
    simp [List.dropWhile_cons, hc, ih (fun d hd => h d (by simp [hd]))]

theorem eatCi_self : ∀ (p r : List Char), eatCi p (p ++ r) = some (p, r) := by
  intro p
  induction p with
  | nil => intro r; rfl
  | cons c cs ih =>
    intro r
    simp [eatCi, ciEq, ih r]

theorem toFirst_skip {stop : Char} {A Y : List Char}
    (h : ∀ c ∈ A, (c == stop) = false) :
    toFirst stop (A ++ stop :: Y) = some (A ++ [stop], Y) := by
  induction A with
  | nil => simp [toFirst]
  | cons c cs ih =>
    have hc := h c (by simp)
    simp [toFirst, hc, ih (fun d hd => h d (by simp [hd]))]

theorem mUrl_head_none {cfg : SanitizerConfig} {q c : Char} {cs : List Char}
    (h1 : ciEq c 'h' = false) (h2 : ciEq c 's' = false) :
    mUrl cfg q (c :: cs) = none := by
  simp [mUrl, hrefChars, srcChars, eatCi, h1, h2]

theorem mUrl_alt_sfx {l attrTxt r1 : List Char}
    (h : (match eatCi "href".toList l with
          | some pr => some pr
          | none => eatCi "src".toList l) = some (attrTxt, r1)) : r1 <:+ l := by
  cases he : eatCi "href".toList l with
  | some pr =>
    rw [he] at h
    simp only [Option.some.injEq] at h
    exact eatCi_sfx (l := l) (by rw [he, h])
  | none =>
    rw [he] at h
    exact eatCi_sfx h

theorem mUrl_no_dq {cfg : SanitizerConfig} {l : List Char}
    (h : ('"' : Char) ∉ l) : mUrl cfg '"' l = none := by
  simp only [mUrl]
  split
  · rfl
  rename_i attrTxt r1 halt
  have hr1 : r1 <:+ l := mUrl_alt_sfx halt
  split
  · rfl
  rename_i r3 h3
  have hr3 : r3 <:+ l := ((eatc_sfx h3).trans (dropWhile_sfx jsWs r1)).trans hr1
  cases h5 : eatc '"' (r3.dropWhile jsWs) with
  | none => rfl
  | some r5 =>
    exfalso
    have hmem : ('"' : Char) ∈ l := by
      have h6 := eatc_some h5
      have h7 : ('"' : Char) ∈ r3.dropWhile jsWs := by rw [h6]; simp
      exact ((dropWhile_sfx jsWs r3).trans hr3).sublist.mem h7
    exact h hmem

theorem scan_mUrl_no_dq {cfg : SanitizerConfig} {l : List Char}
    (h : ('"' : Char) ∉ l) : scanReplace (mUrl cfg '"') l = l :=
  scan_id_of_none (P := fun l => ('"' : Char) ∉ l)
    (fun c cs hp hin => hp (by simp [hin]))
    (fun _ hp => mUrl_no_dq hp) l h

theorem mUrl_sq_eval (cfg : SanitizerConfig) {v : List Char} (z : List Char) (hv : v ≠ [])
    (hq : ∀ c ∈ v, (c != '\'') = true) :
    mUrl cfg '\'' (['h', 'r', 'e', 'f'] ++ ('=' :: '\'' :: (v ++ ('\'' :: z)))) =
      some (urlDecision cfg ['h', 'r', 'e', 'f'] ('=' :: '\'' :: (v ++ ['\''])) v, z) := by
  have hjeq : jsWs '=' = false := by decide
  have hjq : jsWs '\'' = false := by decide
  have hurl : (v ++ ('\'' :: z)).takeWhile (fun c => c != '\'') = v := by
    rw [takeWhile_append_of_all hq]
    simp [List.takeWhile_cons]
  have hdropv : (v ++ ('\'' :: z)).dropWhile (fun c => c != '\'') = '\'' :: z := by
    rw [dropWhile_append_of_all hq]
    simp [List.dropWhile_cons]
  have hne : v.isEmpty = false := by
    cases v with
    | nil => exact absurd rfl hv
    | cons _ _ => rfl
  simp only [mUrl, hrefChars, eatCi_self, List.takeWhile_cons, List.dropWhile_cons,
    hjeq, hjq, Bool.false_eq_true, if_false, eatc, beq_self_eq_true, if_true,
    hurl, hdropv, hne]
  simp

theorem sqPass_wrap (cfg : SanitizerConfig) {v : List Char} (hv : v ≠ [])
    (hq : ∀ c ∈ v, (c != '\'') = true) :
    scanReplace (mUrl cfg '\'') (wrapL v) =
      '<' :: 'a' :: ' ' ::
        (urlDecision cfg ['h', 'r', 'e', 'f'] ('=' :: '\'' :: (v ++ ['\''])) v ++ ['>']) := by
  rw [show wrapL v =
      '<' :: 'a' :: ' ' :: 'h' :: 'r' :: 'e' :: 'f' :: '=' :: '\'' :: (v ++ ('\'' :: ['>']))
    from rfl]
  rw [scanReplace_cons_none (mUrl_head_none (by decide) (by decide))]
  rw [scanReplace_cons_none (mUrl_head_none (by decide) (by decide))]
  rw [scanReplace_cons_none (mUrl_head_none (by decide) (by decide))]
  rw [scanReplace_cons_some
    (show mUrl cfg '\''
        ('h' :: 'r' :: 'e' :: 'f' :: '=' :: '\'' :: (v ++ ('\'' :: ['>']))) =
      some (urlDecision cfg ['h', 'r', 'e', 'f'] ('=' :: '\'' :: (v ++ ['\''])) v, ['>'])
      from mUrl_sq_eval cfg ['>'] hv hq)
    (by simp)]
  rw [scanReplace_cons_none (mUrl_head_none (by decide) (by decide)), scanReplace_nil]

theorem mCleanup_false_pair (name attrs ws : List Char)
    (hn : name ≠ []) (hword : ∀ c ∈ name, isWordChar c = true)
    (hattr : ∀ c ∈ attrs, (c == '>') = false)
    (hhead : attrs = [] ∨ ∃ a as, attrs = a :: as ∧ isWordChar a = false)
    (hws : ∀ c ∈ ws, jsWs c = true) :
    mCleanup false
      ('<' :: (name ++ (attrs ++ ('>' :: (ws ++ ('<' :: '/' :: (name ++ ['>']))))))) =
      some ([], []) := by
  have hgt : isWordChar '>' = false := by decide
  have hlt : jsWs '<' = false := by decide
  have hw : (name ++ (attrs ++ ('>' :: (ws ++ ('<' :: '/' :: (name ++ ['>'])))))).takeWhile
      isWordChar = name := by
    rw [takeWhile_append_of_all hword]
    rcases hhead with h | ⟨a, as, ha, hna⟩
    · subst h
      simp [List.takeWhile_cons, hgt]
    · rw [ha]
      simp [List.takeWhile_cons, hna]
  have hatt : cleanupAttempt name
      (attrs ++ ('>' :: (ws ++ ('<' :: '/' :: (name ++ ['>']))))) false = some [] := by
    simp only [cleanupAttempt, toFirst_skip hattr, Bool.false_and, Bool.false_eq_true,
      if_false]
    have hdw : (ws ++ ('<' :: '/' :: (name ++ ['>']))).dropWhile jsWs =
        '<' :: '/' :: (name ++ ['>']) := by
      rw [dropWhile_append_of_all hws]
      simp [List.dropWhile_cons, hlt]
    rw [hdw]
    simp [eatSeq, eatCi_self, eatc]
  cases name with
  | nil => exact absurd rfl hn
  | cons n0 name' =>
    simp only [mCleanup, if_pos rfl, hw, List.length_cons, cleanupGo]
    have htake : (((n0 :: name') ++
        (attrs ++ ('>' :: (ws ++ ('<' :: '/' :: ((n0 :: name') ++ ['>'])))))).take
          (name'.length + 1)) = n0 :: name' := by
      simpa using List.take_left (n0 :: name')
        (attrs ++ ('>' :: (ws ++ ('<' :: '/' :: ((n0 :: name') ++ ['>'])))))
    have hdrop : (((n0 :: name') ++
        (attrs ++ ('>' :: (ws ++ ('<' :: '/' :: ((n0 :: name') ++ ['>'])))))).drop
          (name'.length + 1)) = attrs ++ ('>' :: (ws ++ ('<' :: '/' :: ((n0 :: name') ++ ['>'])))) := by
      simpa using List.drop_left (n0 :: name')
        (attrs ++ ('>' :: (ws ++ ('<' :: '/' :: ((n0 :: name') ++ ['>'])))))
    rw [htake, hdrop, hatt]
    simp

theorem cleanupPass_pair (name attrs ws : List Char)
    (hn : name ≠ []) (hword : ∀ c ∈ name, isWordChar c = true)
    (hattr : ∀ c ∈ attrs, (c == '>') = false)
    (hhead : attrs = [] ∨ ∃ a as, attrs = a :: as ∧ isWordChar a = false)
    (hws : ∀ c ∈ ws, jsWs c = true) :
    cleanupPass
      ('<' :: (name ++ (attrs ++ ('>' :: (ws ++ ('<' :: '/' :: (name ++ ['>']))))))) = [] := by
  unfold cleanupPass
  rw [scanReplace_cons_some (mCleanup_false_pair name attrs ws hn hword hattr hhead hws)
    (by simp)]
  rfl

/-! ### Claim theorems -/

/-- C1, counterexample: with the default policy the spec's safety floor fails —
`sanitize` leaves an `onkeydown` handler untouched (it is missing from the
default blocked-attribute list), so a subsequent `removeUnsafe` still changes
the string. -/
theorem c1_counterexample :
    removeUnsafeStr (sanitizeM defaultSanitizer "<div onkeydown=\"a\">b</div>") ≠
      sanitizeM defaultSanitizer "<div onkeydown=\"a\">b</div>" := by decide

/-- C1, amended: the default blocked-element list does contain every element
`removeUnsafe` removes, but the default blocked-attribute list omits
`onkeydown` and `onkeyup` from `removeUnsafe`'s unsafe-attribute list, so
default-policy `sanitize` output can still be changed by `removeUnsafe`;
concretely it leaves `onkeydown` in place and `removeUnsafe` strips it. -/
theorem c1_amended :
    (∀ t, t ∈ unsafeElements → t ∈ defaultSanitizer.disallowedElements.getD []) ∧
    "onkeydown" ∈ unsafeAttributes ∧ "onkeyup" ∈ unsafeAttributes ∧
    "onkeydown" ∉ defaultSanitizer.disallowedAttributes.getD [] ∧
    "onkeyup" ∉ defaultSanitizer.disallowedAttributes.getD [] ∧
    sanitizeM defaultSanitizer "<div onkeydown=\"a\">b</div>" =
      "<div onkeydown=\"a\">b</div>" ∧
    removeUnsafeStr "<div onkeydown=\"a\">b</div>" = "<div>b</div>" :=
  ⟨by decide, by decide, by decide, by decide, by decide, by decide, by decide⟩

/-- C1, witness: the amended superset clause applied to the `script` tag. -/
theorem c1_witness : "script" ∈ defaultSanitizer.disallowedElements.getD [] :=
  c1_amended.1 "script" (by decide)

/-- C2: for every element sink, string input and options value, `setHTML`
assigns exactly `removeUnsafe(input)` (a policy-independent function) and
`setHTMLUnsafe` assigns exactly `sanitize(input)` under the resolved policy;
the same holds for the ShadowRoot processor's content slot read by
`getHTML`. -/
theorem c2_theorem : ∀ (e : Element) (s : String) (opts : Option SetHTMLOptions)
    (p : ShadowRootProcessor),
    setHTML (some e) (JSVal.str s) opts = some { innerHTML := removeUnsafeStr s } ∧
    setHTMLUnsafe (some e) (JSVal.str s) opts =
      some { innerHTML := sanitizeM (resolveSanitizer opts) s } ∧
    (shadowSetHTML p (JSVal.str s) opts).content = removeUnsafeStr s ∧
    shadowGetHTML (shadowSetHTML p (JSVal.str s) opts) = removeUnsafeStr s ∧
    (shadowSetHTMLUnsafe p (JSVal.str s) opts).content = sanitizeM (resolveShadow p opts) s ∧
    shadowGetHTML (shadowSetHTMLUnsafe p (JSVal.str s) opts) =
      sanitizeM (resolveShadow p opts) s := by
  intro e s opts p
  exact ⟨rfl, rfl, rfl, rfl, rfl, rfl⟩

/-- C3, counterexample: with `allowDataUrls: true` a `data:` URL is NOT
exempted from the protocol whitelist — the whitelist check fires first and
replaces the value with `#`. -/
theorem c3_counterexample :
    sanitizeM (mkSanitizer { allowDataUrls := some true })
      "<a href=\x27data:text/plain,x\x27>y</a>" = "<a href=\"#\">y</a>" ∧
    sanitizeM (mkSanitizer { allowDataUrls := some true })
      "<a href=\x27data:text/plain,x\x27>y</a>" ≠ "<a href=\x27data:text/plain,x\x27>y</a>" := by
  constructor <;> decide

/-- C3, amended: in the URL pass a quoted `href` value that fails to parse is
replaced with `#`; a value whose scheme is missing from a configured
`allowedProtocols` list is replaced with `#`; and `allowDataUrls` exempts
`data:` URLs only from the data-URL check, not from the protocol whitelist —
a `data:` URL is left untouched when the whitelist is absent and
`allowDataUrls` is true. -/
theorem c3_amended : ∀ (cfg : SanitizerConfig) (v : List Char),
    v ≠ [] → (∀ c ∈ v, c ≠ '\'') → (∀ c ∈ v, c ≠ '"') →
    ((parseProtocol v = none → urlsPass cfg (wrapL v) = "<a href=\"#\">".toList) ∧
     (∀ L p, parseProtocol v = some p → cfg.allowedProtocols = some L → p ∉ L →
        urlsPass cfg (wrapL v) = "<a href=\"#\">".toList) ∧
     (parseProtocol v = some "data:" → cfg.allowedProtocols = none →
        cfg.allowDataUrls = some true → urlsPass cfg (wrapL v) = wrapL v)) := by
  intro cfg v hv hq1 hq2
  have hq : ∀ c ∈ v, (c != '\'') = true := fun c hc => by simp [hq1 c hc]
  have hsq := sqPass_wrap cfg hv hq
  have hu : urlsPass cfg (wrapL v) =
      scanReplace (mUrl cfg '"') (scanReplace (mUrl cfg '\'') (wrapL v)) := rfl
  refine ⟨?_, ?_, ?_⟩
  · intro hparse
    rw [hu, hsq]
    rw [show urlDecision cfg ['h', 'r', 'e', 'f'] ('=' :: '\'' :: (v ++ ['\''])) v =
        ['h', 'r', 'e', 'f', '=', '"', '#', '"'] from by simp [urlDecision, hparse]]
    rfl
  · intro L p hparse hL hnot
    rw [hu, hsq]
    rw [show urlDecision cfg ['h', 'r', 'e', 'f'] ('=' :: '\'' :: (v ++ ['\''])) v =
        ['h', 'r', 'e', 'f', '=', '"', '#', '"'] from by
      simp [urlDecision, hparse, hL, hnot]]
    rfl
  · intro hparse hnoneL hallow
    rw [hu, hsq]
    rw [show urlDecision cfg ['h', 'r', 'e', 'f'] ('=' :: '\'' :: (v ++ ['\''])) v =
        ['h', 'r', 'e', 'f'] ++ ('=' :: '\'' :: (v ++ ['\''])) from by
      simp [urlDecision, hparse, hnoneL, hallow]]
    rw [show ('<' : Char) :: 'a' :: ' ' ::
        ((['h', 'r', 'e', 'f'] ++ ('=' :: '\'' :: (v ++ ['\'']))) ++ ['>']) = wrapL v from by
      simp [wrapL]]
    apply scan_mUrl_no_dq
    intro hmem
    simp [wrapL] at hmem
    exact hq2 '"' hmem rfl

/-- C3, witness: the amended clauses applied to a malformed URL, a
`javascript:` URL under the default whitelist, and a `data:` URL with no
whitelist and `allowDataUrls` enabled. -/
theorem c3_witness :
    urlsPass defaultSanitizer (wrapL "notaurl".toList) = "<a href=\"#\">".toList ∧
    urlsPass defaultSanitizer (wrapL "javascript:alert(1)".toList) = "<a href=\"#\">".toList ∧
    urlsPass { allowedProtocols := none, allowDataUrls := some true }
      (wrapL "data:text/plain,x".toList) = wrapL "data:text/plain,x".toList :=
  ⟨(c3_amended defaultSanitizer "notaurl".toList (by decide) (by decide) (by decide)).1
      (by decide),
   (c3_amended defaultSanitizer "javascript:alert(1)".toList (by decide) (by decide)
      (by decide)).2.1 ["http:", "https:", "mailto:", "tel:"] "javascript:" (by decide)
      (by decide) (by decide),
   (c3_amended { allowedProtocols := none, allowDataUrls := some true }
      "data:text/plain,x".toList (by decide) (by decide) (by decide)).2.2
      (by decide) rfl rfl⟩

/-- C4, counterexample: when a configuration supplies both `removeElements`
and the legacy `disallowedElements`, the constructor applies `removeElements`
last, so the MDN-style list — not the legacy one — becomes the canonical
blocked-element set, observably through `isElementAllowed` and `sanitize`. -/
theorem c4_counterexample :
    (mkSanitizer { removeElements := some ["em"], disallowedElements := some ["strong"] }
      ).disallowedElements = some ["em"] ∧
    isElementAllowed
      (mkSanitizer { removeElements := some ["em"], disallowedElements := some ["strong"] })
      "strong" = true ∧
    sanitizeM
      (mkSanitizer { removeElements := some ["em"], disallowedElements := some ["strong"] })
      "<em>a</em><strong>b</strong>" = "<strong>b</strong>" := by
  refine ⟨by decide, by decide, by decide⟩

/-- C4, amended: a supplied `removeElements` always has final say over the
canonical blocked-element set; the legacy `disallowedElements` value wins only
when `removeElements` is absent. -/
theorem c4_amended : ∀ (user : SanitizerConfig),
    (∀ r, user.removeElements = some r → (mkSanitizer user).disallowedElements = some r) ∧
    (∀ d, user.removeElements = none → user.disallowedElements = some d →
      (mkSanitizer user).disallowedElements = some d) := by
  intro user
  constructor
  · intro r h
    simp [mkSanitizer, h]
  · intro d h1 h2
    simp [mkSanitizer, h1, h2]

/-- C4, witness: the amended precedence applied to the counterexample
configuration and to a legacy-only configuration. -/
theorem c4_witness :
    (mkSanitizer { removeElements := some ["em"], disallowedElements := some ["strong"] }
      ).disallowedElements = some ["em"] ∧
    (mkSanitizer { disallowedElements := some ["strong"] }).disallowedElements =
      some ["strong"] :=
  ⟨(c4_amended _).1 ["em"] rfl, (c4_amended _).2 ["strong"] rfl rfl⟩

/-- C5, counterexample: the allow/block queries lowercase only the query
argument, not the configured list entries, so a name present
(case-insensitively) in both an allow-list and a block-list can still be
reported as allowed when the block-list entry is not lowercase. -/
theorem c5_counterexample :
    isElementAllowed
      (mkSanitizer { allowedElements := some ["em"], disallowedElements := some ["EM"] })
      "em" = true ∧
    isAttributeAllowed
      (mkSanitizer { allowedAttributes := some ["lang"], disallowedAttributes := some ["LANG"] })
      "lang" = true := by
  constructor <;> decide

/-- C5, amended: a name whose lowercasing appears verbatim in the block-list
is always rejected regardless of the allow-list; both queries are
case-insensitive in the query argument (they depend only on its lowercasing),
but configured list entries are matched case-sensitively. -/
theorem c5_amended : ∀ (cfg : SanitizerConfig) (name : String),
    (strLower name ∈ cfg.disallowedElements.getD [] → isElementAllowed cfg name = false) ∧
    (strLower name ∈ cfg.disallowedAttributes.getD [] → isAttributeAllowed cfg name = false) ∧
    (∀ other : String, strLower name = strLower other →
      isElementAllowed cfg name = isElementAllowed cfg other ∧
      isAttributeAllowed cfg name = isAttributeAllowed cfg other) := by
  intro cfg name
  refine ⟨?_, ?_, ?_⟩
  · intro h
    simp [isElementAllowed, h]
  · intro h
    simp [isAttributeAllowed, h]
  · intro other h
    constructor
    · simp only [isElementAllowed, h]
    · simp only [isAttributeAllowed, h]

/-- C5, witness: blocklist precedence for lowercase entries, and query-side
case-insensitivity. -/
theorem c5_witness :
    isElementAllowed (mkSanitizer { disallowedElements := some ["em"] }) "EM" = false ∧
    isAttributeAllowed (mkSanitizer { disallowedAttributes := some ["onclick"] })
      "OnClick" = false ∧
    (isElementAllowed defaultSanitizer "DIV" = isElementAllowed defaultSanitizer "div" ∧
     isAttributeAllowed defaultSanitizer "DIV" = isAttributeAllowed defaultSanitizer "div") :=
  ⟨(c5_amended _ "EM").1 (by decide), (c5_amended _ "OnClick").2.1 (by decide),
   (c5_amended _ "DIV").2.2 "div" (by decide)⟩

/-- C6, counterexample: neither pass is idempotent — deleting a blocked tag
can splice the surrounding text into a new blocked tag, which only the next
application removes. -/
theorem c6_counterexample :
    sanitizeM defaultSanitizer (sanitizeM defaultSanitizer "<scr<script>ipt>x") ≠
      sanitizeM defaultSanitizer "<scr<script>ipt>x" ∧
    removeUnsafeStr (removeUnsafeStr "<scr<script>ipt>x") ≠
      removeUnsafeStr "<scr<script>ipt>x" := by
  constructor <;> decide

/-- C6, amended: idempotence fails for both `sanitize` and `removeUnsafe`:
there are inputs on which a second application changes the output again,
because removing a blocked tag splices adjacent text into a new one. -/
theorem c6_amended :
    (∃ (s : String) (P : SanitizerConfig), sanitizeM P (sanitizeM P s) ≠ sanitizeM P s) ∧
    (∃ s : String, removeUnsafeStr (removeUnsafeStr s) ≠ removeUnsafeStr s) ∧
    sanitizeM defaultSanitizer "<scr<script>ipt>x" = "<script>x" ∧
    sanitizeM defaultSanitizer "<script>x" = "x" ∧
    removeUnsafeStr "<scr<script>ipt>x" = "<script>x" ∧
    removeUnsafeStr "<script>x" = "x" :=
  ⟨⟨"<scr<script>ipt>x", defaultSanitizer, by decide⟩,
   ⟨"<scr<script>ipt>x", by decide⟩, by decide, by decide, by decide, by decide⟩

/-- C7, counterexample: `removeUnsafe` has no input guard — on `null` it
calls `.replace` on a non-string and throws (modelled as `none`) instead of
returning an empty result. -/
theorem c7_counterexample :
    removeUnsafeJS JSVal.nullV ≠ some "" ∧ removeUnsafeJS JSVal.nullV = none := by
  constructor <;> decide

/-- C7, amended: `sanitize` returns the empty string on null, undefined,
non-string and empty input, and the `setHTML` family leaves its sink
untouched on non-string input; `removeUnsafe` however performs no input
check and throws on non-string input. -/
theorem c7_amended : ∀ (cfg : SanitizerConfig) (el : Option Element)
    (opts : Option SetHTMLOptions) (p : ShadowRootProcessor),
    sanitizeJS cfg JSVal.nullV = "" ∧ sanitizeJS cfg JSVal.undef = "" ∧
    sanitizeJS cfg JSVal.other = "" ∧ sanitizeJS cfg (JSVal.str "") = "" ∧
    setHTML el JSVal.nullV opts = el ∧ setHTML el JSVal.undef opts = el ∧
    setHTML el JSVal.other opts = el ∧
    setHTMLUnsafe el JSVal.nullV opts = el ∧ setHTMLUnsafe el JSVal.undef opts = el ∧
    setHTMLUnsafe el JSVal.other opts = el ∧
    shadowSetHTML p JSVal.nullV opts = p ∧ shadowSetHTML p JSVal.undef opts = p ∧
    shadowSetHTML p JSVal.other opts = p ∧
    shadowSetHTMLUnsafe p JSVal.nullV opts = p ∧ shadowSetHTMLUnsafe p JSVal.undef opts = p ∧
    shadowSetHTMLUnsafe p JSVal.other opts = p ∧
    removeUnsafeJS JSVal.nullV = none ∧ removeUnsafeJS JSVal.undef = none ∧
    removeUnsafeJS JSVal.other = none := by
  intro cfg el opts p
  rcases el with _ | e <;>
    exact ⟨rfl, rfl, rfl, rfl, rfl, rfl, rfl, rfl, rfl, rfl, rfl, rfl, rfl, rfl, rfl,
      rfl, rfl, rfl, rfl⟩

/-- C8, counterexample: on the input `</script>` the sanitizer changes
nothing, yet `script` is reported as removed — the shared global regex's
`lastIndex` left over from testing the original makes the second `test` miss
the match still present in the output; the claim's reading (both searches
from the start) reports nothing. -/
theorem c8_counterexample :
    (processHTMLWithMetadata defaultSanitizer "</script>").removedElements = ["script"] ∧
    claimRemovedElements defaultSanitizer "</script>".toList
      (processHTMLWithMetadata defaultSanitizer "</script>").sanitizedHTML.toList = [] ∧
    (processHTMLWithMetadata defaultSanitizer "</script>").wasModified = false ∧
    (processHTMLWithMetadata defaultSanitizer "</script>").sanitizedHTML = "</script>" := by
  refine ⟨by decide, by decide, by decide, by decide⟩

/-- C8, amended: `processHTMLWithMetadata` returns `sanitize(html)` and a
`wasModified` flag that is true exactly when the output differs; a name is
reported as removed iff it is in the policy's blocked list, its pattern
matches the original, and — searching the output from the `lastIndex` left by
the first test, not from the start — the pattern fails to match the output. -/
theorem c8_amended : ∀ (cfg : SanitizerConfig) (html : String),
    (processHTMLWithMetadata cfg html).sanitizedHTML = sanitizeM cfg html ∧
    ((processHTMLWithMetadata cfg html).wasModified = true ↔ sanitizeM cfg html ≠ html) ∧
    (∀ t, t ∈ (processHTMLWithMetadata cfg html).removedElements ↔
      (t ∈ cfg.disallowedElements.getD [] ∧
        testPairCond (mTagMention t.toList) html.toList (sanitizeM cfg html).toList = true)) ∧
    (∀ a, a ∈ (processHTMLWithMetadata cfg html).removedAttributes ↔
      (a ∈ cfg.disallowedAttributes.getD [] ∧
        testPairCond (mAttrMention a.toList) html.toList (sanitizeM cfg html).toList = true)) := by
  intro cfg html
  refine ⟨rfl, ?_, ?_, ?_⟩
  · show (sanitizeM cfg html != html) = true ↔ _
    simp [bne_iff_ne]
  · intro t
    show t ∈ extractRemovedElements cfg html.toList (sanitizeM cfg html).toList ↔ _
    simp [extractRemovedElements, List.mem_filter]
  · intro a
    show a ∈ extractRemovedAttributes cfg html.toList (sanitizeM cfg html).toList ↔ _
    simp [extractRemovedAttributes, List.mem_filter]

/-- C9: the structure validator classifies via the collected open/close tag
lists: closing tags against an empty stack and tag-name mismatches yield
errors, leftover open tags yield a warning, `isValid` holds exactly when
`errors` is empty, and the two literal scenarios behave as specified. -/
theorem c9_theorem :
    validateHTMLStructure "<p>Hello</p>" = ⟨true, [], []⟩ ∧
    (validateHTMLStructure "<p>Hello</div>").isValid = false ∧
    (validateHTMLStructure "<p>Hello</div>").errors =
      ["Mismatched tags: expected \x27p\x27, found \x27div\x27"] ∧
    (validateHTMLStructure "</div>").errors =
      ["Closing tag \x27div\x27 without matching opening tag"] ∧
    (validateHTMLStructure "<p>").warnings = ["Unclosed tags: p"] ∧
    (∀ html, (validateHTMLStructure html).isValid = true ↔
      (validateHTMLStructure html).errors = []) := by
  refine ⟨by decide, by decide, by decide, by decide, by decide, ?_⟩
  intro html
  simp [validateHTMLStructure, List.isEmpty_iff]

/-- C10: the empty-tag cleanup removes any open/close pair of the same tag
name enclosing only whitespace, including pairs already empty in the original
input: a lone such pair cleans to the empty string, and for every policy the
`<div></div>` of `<div></div><p>x</p>` is gone from the sanitized output even
though no blocked content touched it (with the default policy the output is
exactly `<p>x</p>`). -/
theorem c10_theorem :
    (∀ (name attrs ws : List Char), name ≠ [] → (∀ c ∈ name, isWordChar c = true) →
      (∀ c ∈ attrs, (c == '>') = false) →
      (attrs = [] ∨ ∃ a as, attrs = a :: as ∧ isWordChar a = false) →
      (∀ c ∈ ws, jsWs c = true) →
      cleanupPass
        ('<' :: (name ++ (attrs ++ ('>' :: (ws ++ ('<' :: '/' :: (name ++ ['>']))))))) = []) ∧
    (∀ P : SanitizerConfig,
      ¬ "<div></div>".toList <:+: (sanitizeM P "<div></div><p>x</p>").toList) ∧
    sanitizeM defaultSanitizer "<div></div><p>x</p>" = "<p>x</p>" := by
  refine ⟨cleanupPass_pair, ?_, by decide⟩
  intro P hinf
  have h1 : (sanitizeM P "<div></div><p>x</p>").toList = sanitizeCore P s0Chars := by
    rw [sanitizeM, if_neg (by decide)]
    rfl
  rw [h1] at hinf
  exact c10_core P hinf

/-- C10, witness: the pair-removal clause applied to a literal `<div></div>`
pair and the policy clause applied to the default policy. -/
theorem c10_witness :
    cleanupPass
      ('<' :: ("div".toList ++ ([] ++ ('>' :: ([] ++ ('<' :: '/' :: ("div".toList ++ ['>'])))))))
      = [] ∧
    ¬ "<div></div>".toList <:+: (sanitizeM defaultSanitizer "<div></div><p>x</p>").toList ∧
    sanitizeM defaultSanitizer "<div></div><p>x</p>" = "<p>x</p>" :=
  ⟨c10_theorem.1 "div".toList [] [] (by decide) (by decide) (by decide) (Or.inl rfl)
      (by decide),
   c10_theorem.2.1 defaultSanitizer, c10_theorem.2.2⟩
